import Mathlib

/-!
Shallow embedding of the tinysecrets encrypted secret store.

Source files embedded here:
  - src/crypto.rs  : envelope crypto engine (ChaCha20-Poly1305 current format,
    age-based legacy format, passphrase verification token)
  - src/store.rs   : SQLite-backed versioned secret store (set/get/delete/
    history/import, metadata table, init)
  - src/cli/migrate.rs : batch migration from the legacy to the current format

Modelling conventions:
  - Byte strings ([u8] / Vec<u8>) are `List Nat` with every element < 256;
    the bound appears as an explicit hypothesis where it matters.
  - The external cipher primitives (the chacha20poly1305 and age crates,
    and scrypt) are modelled as ideal executable ciphers: an XOR keystream
    derived from the key material plus a recomputable authentication tag.
    The envelope framing (version byte, nonce layout, base64, headers,
    UTF-8 validation) is translated from the source byte for byte.
  - SQLite tables are lists of row structures; each SQL statement becomes a
    list transformation; randomness (nonces) and clock reads (Utc::now())
    are explicit parameters.
-/

namespace TinySecrets

/-- Byte strings are lists of naturals (each intended < 256). -/
abbrev Bytes := List Nat

/-- Does `data` start with the byte sequence `pre`? (models `[u8]::starts_with`). -/
def startsWithB : Bytes → Bytes → Bool
  | _, [] => true
  | [], _ :: _ => false
  | a :: l, b :: p => if a = b then startsWithB l p else false

/-- Mixing step of the ideal hash used to model the external cipher primitives. -/
def mixByte (a b : Nat) : Nat := (a * 131 + b + 7) % 256

/-- Fold a byte list into a single byte, starting from `seed`. -/
def hashFold (l : Bytes) (seed : Nat) : Nat := l.foldl mixByte seed

/-- 16-byte authentication tag over `data` under `key` (ideal MAC model). -/
def macBytes (key data : Bytes) : Bytes :=
  (List.range 16).map (fun i => hashFold (key ++ data) i)

/-- Ideal keystream byte `i` for key material `key`/`nonce` (models the
stream-cipher keystream; real ChaCha20 likewise XORs a keystream). -/
def ksByte (key nonce : Bytes) (i : Nat) : Nat :=
  hashFold (key ++ nonce ++ [i % 256]) 7

/-- XOR a byte list against a keystream starting at index `i`. -/
def xorStream (ks : Nat → Nat) : Nat → Bytes → Bytes
  | _, [] => []
  | i, b :: rest => (b ^^^ ks i) :: xorStream ks (i + 1) rest

/-! ## Base64 (RFC 4648 standard alphabet with padding)

Envelopes are stored as base64 text (`BASE64.encode` / `BASE64.decode` with
the `STANDARD` engine in crypto.rs and migrate.rs).  Characters are modelled
by their ASCII codes. -/

/-- The standard base64 alphabet, as ASCII codes: A-Z, a-z, 0-9, +, /. -/
def b64Table : Bytes :=
  (List.range 26).map (fun i => 65 + i) ++
  (List.range 26).map (fun i => 97 + i) ++
  (List.range 10).map (fun i => 48 + i) ++
  [43, 47]

/-- Character for a sextet value. -/
def sextetChar (s : Nat) : Nat := b64Table.getD s 0

/-- Sextet value of a character, if it is in the alphabet. -/
def charSextet (c : Nat) : Option Nat := b64Table.indexOf? c

/-- Base64-encode a byte list into a list of character codes. -/
def b64Encode : Bytes → Bytes
  | [] => []
  | [a] => [sextetChar (a / 4), sextetChar (a % 4 * 16), 61, 61]
  | [a, b] => [sextetChar (a / 4), sextetChar (a % 4 * 16 + b / 16),
               sextetChar (b % 16 * 4), 61]
  | a :: b :: c :: rest =>
    sextetChar (a / 4) :: sextetChar (a % 4 * 16 + b / 16) ::
    sextetChar (b % 16 * 4 + c / 64) :: sextetChar (c % 64) :: b64Encode rest

/-- Base64-decode a list of character codes; `none` on malformed input
('=' is code 61; padding may appear only in the final quartet). -/
def b64Decode : Bytes → Option Bytes
  | [] => some []
  | c1 :: c2 :: c3 :: c4 :: rest =>
    match charSextet c1, charSextet c2 with
    | some s1, some s2 =>
      if c3 = 61 then
        if c4 = 61 ∧ rest = [] then some [s1 * 4 + s2 / 16] else none
      else
        match charSextet c3 with
        | some s3 =>
          if c4 = 61 then
            if rest = [] then some [s1 * 4 + s2 / 16, s2 % 16 * 16 + s3 / 4]
            else none
          else
            match charSextet c4 with
            | some s4 =>
              match b64Decode rest with
              | some tail =>
                some ((s1 * 4 + s2 / 16) :: (s2 % 16 * 16 + s3 / 4) ::
                      (s3 % 4 * 64 + s4) :: tail)
              | none => none
            | none => none
        | none => none
    | _, _ => none
  | _ => none

/-! ## UTF-8 validation

`String::from_utf8` in decrypt_v2 / decrypt_legacy succeeds exactly on valid
UTF-8 (RFC 3629); modelled as a byte-level validator returning the same
bytes.  Rust `&str` plaintexts are modelled as byte lists satisfying this
predicate. -/

/-- Is `b` a UTF-8 continuation byte (10xxxxxx)? -/
def contB (b : Nat) : Bool := decide (128 ≤ b ∧ b ≤ 191)

/-- RFC 3629 UTF-8 validity (excludes overlong forms, surrogates, > U+10FFFF). -/
def isValidUtf8 : Bytes → Bool
  | [] => true
  | b :: rest =>
    if b < 128 then isValidUtf8 rest
    else if 194 ≤ b ∧ b ≤ 223 then
      match rest with
      | c1 :: r => contB c1 && isValidUtf8 r
      | [] => false
    else if b = 224 then
      match rest with
      | c1 :: c2 :: r => decide (160 ≤ c1 ∧ c1 ≤ 191) && contB c2 && isValidUtf8 r
      | _ => false
    else if (225 ≤ b ∧ b ≤ 236) ∨ b = 238 ∨ b = 239 then
      match rest with
      | c1 :: c2 :: r => contB c1 && contB c2 && isValidUtf8 r
      | _ => false
    else if b = 237 then
      match rest with
      | c1 :: c2 :: r => decide (128 ≤ c1 ∧ c1 ≤ 159) && contB c2 && isValidUtf8 r
      | _ => false
    else if b = 240 then
      match rest with
      | c1 :: c2 :: c3 :: r =>
        decide (144 ≤ c1 ∧ c1 ≤ 191) && contB c2 && contB c3 && isValidUtf8 r
      | _ => false
    else if 241 ≤ b ∧ b ≤ 243 then
      match rest with
      | c1 :: c2 :: c3 :: r => contB c1 && contB c2 && contB c3 && isValidUtf8 r
      | _ => false
    else if b = 244 then
      match rest with
      | c1 :: c2 :: c3 :: r =>
        decide (128 ≤ c1 ∧ c1 ≤ 143) && contB c2 && contB c3 && isValidUtf8 r
      | _ => false
    else false

/-! ## Legacy (age) passphrase scheme

crypto.rs keeps the age-based passphrase scheme for the legacy envelope
format (`decrypt_legacy`), the verification token (`derive_verification`,
`verify_passphrase`); store.rs calls the passphrase-based
`crypto::encrypt(value, passphrase)` / `crypto::decrypt(enc, passphrase)`
pair, i.e. the same passphrase scheme.  The age crate is external; it is
modelled as an ideal cipher whose envelope starts with the age
self-identifying header, followed by a 16-byte nonce (standing for the
scrypt stanza salt), a 16-byte passphrase tag, and the keystream-XORed
payload. -/

/-- ASCII bytes of "age-encryption.org" (the age format header). -/
def ageHeader : Bytes :=
  [97, 103, 101, 45, 101, 110, 99, 114, 121, 112, 116, 105, 111, 110,
   46, 111, 114, 103]

/-- ASCII bytes of "tinysecrets-verification-v1" (the known verification plaintext). -/
def verificationConst : Bytes :=
  [116, 105, 110, 121, 115, 101, 99, 114, 101, 116, 115, 45,
   118, 101, 114, 105, 102, 105, 99, 97, 116, 105, 111, 110, 45, 118, 49]

/-- Errors of the age decryption path. -/
inductive AgeError
  | notAgeData
  | wrongPassphrase
deriving DecidableEq

/-- Ideal model of age passphrase encryption (`age::Encryptor::with_user_passphrase`). -/
def ageEncryptBytes (pass nonce pt : Bytes) : Bytes :=
  ageHeader ++ nonce ++ macBytes pass nonce ++ xorStream (ksByte pass nonce) 0 pt

/-- Ideal model of age passphrase decryption (`age::Decryptor` + `decrypt`). -/
def ageDecryptBytes (pass data : Bytes) : Except AgeError Bytes :=
  if startsWithB data ageHeader then
    let rest := data.drop ageHeader.length
    if rest.length < 32 then .error .wrongPassphrase
    else
      let nonce := rest.take 16
      let rest2 := rest.drop 16
      if rest2.take 16 = macBytes pass nonce then
        .ok (xorStream (ksByte pass nonce) 0 (rest2.drop 16))
      else .error .wrongPassphrase
  else .error .notAgeData

/-- Error taxonomy of src/crypto.rs `decrypt` (one constructor per distinct
`anyhow` failure on the decryption paths). -/
inductive CryptoError
  | badBase64
  | emptyCiphertext
  | ciphertextTooShort
  | decryptionFailed
  | invalidUtf8
  | unknownVersion (v : Nat)
  | age (e : AgeError)
deriving DecidableEq

/-- The legacy passphrase-based encryption as stored: base64 text of an age
envelope.  This is the `crypto::encrypt(value, passphrase)` that store.rs
calls. -/
def legacyEncrypt (pass nonce pt : Bytes) : Bytes :=
  b64Encode (ageEncryptBytes pass nonce pt)

/-- src/crypto.rs `decrypt_legacy`: base64-decode the original ciphertext
string, decrypt via age with the passphrase, validate UTF-8. -/
def decrypt_legacy (ciphertext : Bytes) (pass : Bytes) : Except CryptoError Bytes :=
  match b64Decode ciphertext with
  | none => .error .badBase64
  | some encrypted =>
    match ageDecryptBytes pass encrypted with
    | .error e => .error (.age e)
    | .ok pt => if isValidUtf8 pt then .ok pt else .error .invalidUtf8

/-- src/crypto.rs `derive_verification`: the fixed known plaintext encrypted
with the age passphrase scheme, base64-encoded.  `nonce` models the
randomness the age encryptor draws. -/
def derive_verification (pass nonce : Bytes) : Bytes :=
  b64Encode (ageEncryptBytes pass nonce verificationConst)

/-- src/crypto.rs `verify_passphrase`: attempt age decryption of the token
and compare against the known constant; every failure is `false`. -/
def verify_passphrase (pass : Bytes) (verification : Bytes) : Bool :=
  match b64Decode verification with
  | none => false
  | some encrypted =>
    match ageDecryptBytes pass encrypted with
    | .error _ => false
    | .ok pt => pt = verificationConst

/-! ## Current (v2) format: ChaCha20-Poly1305 keyed by the MasterKey -/

/-- src/crypto.rs `MasterKey`: the derived symmetric key bytes. -/
structure MasterKey where
  key : Bytes
deriving DecidableEq

/-- src/crypto.rs `MasterKey::derive`: scrypt is an external crate, modelled
as an ideal 32-byte KDF over (passphrase, salt). -/
def MasterKey.derive (pass salt : Bytes) : MasterKey :=
  ⟨(List.range 32).map (fun i => hashFold (pass ++ salt) i)⟩

/-- Current encryption format version byte. -/
def CRYPTO_VERSION : Nat := 2

/-- Legacy (age-based) version byte. -/
def LEGACY_VERSION : Nat := 1

/-- Ideal ChaCha20-Poly1305 seal: keystream-XORed plaintext followed by a
16-byte tag over the ciphertext. -/
def chachaSeal (key nonce pt : Bytes) : Bytes :=
  let ct := xorStream (ksByte key nonce) 0 pt
  ct ++ macBytes (key ++ nonce) ct

/-- Ideal ChaCha20-Poly1305 open: verify the trailing tag, then un-XOR. -/
def chachaOpen (key nonce data : Bytes) : Option Bytes :=
  if data.length < 16 then none
  else
    let ct := data.take (data.length - 16)
    let tag := data.drop (data.length - 16)
    if tag = macBytes (key ++ nonce) ct then
      some (xorStream (ksByte key nonce) 0 ct)
    else none

/-- src/crypto.rs `encrypt`: version byte, fresh 12-byte nonce, AEAD
ciphertext+tag, base64-encoded.  `nonce` models the randomness drawn from
`rand::thread_rng`. -/
def encrypt (plaintext : Bytes) (mk : MasterKey) (nonce : Bytes) : Bytes :=
  b64Encode (CRYPTO_VERSION :: (nonce ++ chachaSeal mk.key nonce plaintext))

/-- src/crypto.rs `decrypt_v2`: split nonce(12) + ciphertext, authenticate
and decrypt with the MasterKey, validate UTF-8. -/
def decrypt_v2 (data : Bytes) (mk : MasterKey) : Except CryptoError Bytes :=
  if data.length < 12 then .error .ciphertextTooShort
  else
    let nonce := data.take 12
    let ct := data.drop 12
    match chachaOpen mk.key nonce ct with
    | none => .error .decryptionFailed
    | some pt => if isValidUtf8 pt then .ok pt else .error .invalidUtf8

/-- src/crypto.rs `is_age_format`: data starts with the age header.  (The
source's second disjunct checks the same prefix on
`String::from_utf8_lossy(data)`; for this pure-ASCII header the two checks
coincide byte for byte.) -/
def is_age_format (data : Bytes) : Bool := startsWithB data ageHeader

/-- src/crypto.rs `decrypt`: base64-decode, dispatch on the leading version
byte; v2 via the fast path, v1 or age-headered data via the legacy path,
anything else a hard error. -/
def decrypt (ciphertext : Bytes) (mk : MasterKey) (pass : Bytes) :
    Except CryptoError Bytes :=
  match b64Decode ciphertext with
  | none => .error .badBase64
  | some data =>
    match data with
    | [] => .error .emptyCiphertext
    | v :: rest =>
      if v = CRYPTO_VERSION then decrypt_v2 rest mk
      else if v = LEGACY_VERSION then decrypt_legacy ciphertext pass
      else if is_age_format (v :: rest) then decrypt_legacy ciphertext pass
      else .error (.unknownVersion v)

/-! ## Versioned secret store (src/store.rs)

The three SQLite tables are lists of rows; timestamps are abstract `Nat`
instants; `encrypted_value` columns hold the base64 text as character
codes.  store.rs (this snapshot) calls the passphrase-based two-argument
`crypto::encrypt` / `crypto::decrypt`, i.e. the age passphrase scheme
(`legacyEncrypt` / `decrypt_legacy` above). -/

/-- A row of the `secrets` table (current values). -/
structure SecretRow where
  id : Nat
  project : String
  environment : String
  key : String
  encrypted_value : Bytes
  description : Option String
  created_at : Nat
  updated_at : Nat
  version : Nat
deriving DecidableEq

/-- A row of the `secret_history` table. -/
structure SecretHistoryRow where
  project : String
  environment : String
  key : String
  encrypted_value : Bytes
  version : Nat
  created_at : Nat
  deleted_at : Option Nat
deriving DecidableEq

/-- The store's persistent state: the three tables. -/
structure StoreState where
  secrets : List SecretRow
  history : List SecretHistoryRow
  metadata : List (String × Bytes)
deriving DecidableEq

/-- The `WHERE project = ?1 AND environment = ?2 AND key = ?3` filter. -/
def rowMatches (p e k : String) (r : SecretRow) : Bool :=
  r.project = p ∧ r.environment = e ∧ r.key = k

/-- The same identity filter on history rows. -/
def histMatches (p e k : String) (h : SecretHistoryRow) : Bool :=
  h.project = p ∧ h.environment = e ∧ h.key = k

/-- `query_row` over `secrets` for one identity: the first matching row. -/
def findSecret (st : StoreState) (p e k : String) : Option SecretRow :=
  st.secrets.find? (rowMatches p e k)

/-- Fresh row id for an INSERT (models the SQLite rowid). -/
def freshId (st : StoreState) : Nat :=
  st.secrets.foldl (fun a r => max a r.id) 0 + 1

/-- The archive row `set` copies into `secret_history` (INSERT ... SELECT
with `updated_at` as the history `created_at` and no `deleted_at`). -/
def archiveRow (r : SecretRow) : SecretHistoryRow :=
  ⟨r.project, r.environment, r.key, r.encrypted_value, r.version,
   r.updated_at, none⟩

/-- src/store.rs `Store::set`: encrypt the value with the store passphrase;
if the identity exists archive the current row to history and overwrite it
at version+1, else insert at version 1.  Both branches commit as one
transaction.  `now` models `Utc::now()`, `nonce` the randomness the
encryption draws. -/
def Store.set (st : StoreState) (pass : Bytes) (p e k : String)
    (value : Bytes) (desc : Option String) (now : Nat) (nonce : Bytes) :
    StoreState :=
  let enc := legacyEncrypt pass nonce value
  match findSecret st p e k with
  | some row =>
    ⟨st.secrets.map (fun r =>
        if rowMatches p e k r then
          ⟨r.id, r.project, r.environment, r.key, enc, desc,
           r.created_at, now, row.version + 1⟩
        else r),
     st.history ++ (st.secrets.filter (rowMatches p e k)).map archiveRow,
     st.metadata⟩
  | none =>
    ⟨st.secrets ++ [⟨freshId st, p, e, k, enc, desc, now, now, 1⟩],
     st.history, st.metadata⟩

/-- src/store.rs `Store::get`: read the current envelope and decrypt it;
absent identity is `ok none`, a decryption failure propagates. -/
def Store.get (st : StoreState) (pass : Bytes) (p e k : String) :
    Except CryptoError (Option Bytes) :=
  match findSecret st p e k with
  | none => .ok none
  | some row =>
    match decrypt_legacy row.encrypted_value pass with
    | .error er => .error er
    | .ok v => .ok (some v)

/-- src/store.rs `Store::delete`, first statement: INSERT the current row
into `secret_history` with its existing version, `updated_at` as
`created_at`, and `deleted_at = now`. -/
def deleteArchive (st : StoreState) (p e k : String) (now : Nat) : StoreState :=
  ⟨st.secrets,
   st.history ++ (st.secrets.filter (rowMatches p e k)).map (fun r =>
     ⟨r.project, r.environment, r.key, r.encrypted_value, r.version,
      r.updated_at, some now⟩),
   st.metadata⟩

/-- src/store.rs `Store::delete`: the archive INSERT and the DELETE are two
separate auto-committed statements with no enclosing transaction; each
`conn.execute` is fallible, so `failSecond` models the second statement
failing after the first committed. -/
def Store.delete (st : StoreState) (p e k : String) (now : Nat)
    (failSecond : Bool) : StoreState × Except Unit Bool :=
  let st1 := deleteArchive st p e k now
  if failSecond then (st1, .error ())
  else
    (⟨st1.secrets.filter (fun r => ¬ rowMatches p e k r),
      st1.history, st1.metadata⟩,
     .ok (st1.secrets.any (rowMatches p e k)))

/-- Insert a history row into a list sorted by version descending. -/
def insertVersionDesc (r : SecretHistoryRow) :
    List SecretHistoryRow → List SecretHistoryRow
  | [] => [r]
  | s :: rest =>
    if s.version ≤ r.version then r :: s :: rest
    else s :: insertVersionDesc r rest

/-- `ORDER BY version DESC` as an insertion sort. -/
def sortVersionDesc : List SecretHistoryRow → List SecretHistoryRow
  | [] => []
  | r :: rest => insertVersionDesc r (sortVersionDesc rest)

/-- src/store.rs `Store::history`: the identity's history rows ordered by
version descending, limited to `limit` rows. -/
def Store.history (st : StoreState) (p e k : String) (limit : Nat) :
    List SecretHistoryRow :=
  (sortVersionDesc (st.history.filter (histMatches p e k))).take limit

/-- Metadata lookup (`SELECT value FROM metadata WHERE key = ...`). -/
def lookupMeta (st : StoreState) (key : String) : Option Bytes :=
  (st.metadata.find? (fun x => x.1 = key)).map (fun x => x.2)

/-- src/store.rs `Store::init`: create empty tables and insert exactly two
metadata rows: the passphrase verification token and the schema version
("1" is ASCII 49).  `verifNonce` models the randomness `derive_verification`
draws.  No other metadata is written. -/
def Store.init (pass : Bytes) (verifNonce : Bytes) : StoreState :=
  ⟨[], [],
   [("passphrase_verification", derive_verification pass verifNonce),
    ("schema_version", [49])]⟩

/-- An entry of an export bundle (src/store.rs `ExportedSecret`). -/
structure ExportedSecret where
  key : String
  encrypted_value : Bytes
  description : Option String
  version : Nat
deriving DecidableEq

/-- src/store.rs `ExportBundle`. -/
structure ExportBundle where
  version : Nat
  project : String
  environment : String
  passphrase_verification : Bytes
  exported_at : Nat
  secrets : List ExportedSecret
deriving DecidableEq

/-- Errors of `Store::import`. -/
inductive ImportError
  | wrongPassphrase
  | decryptError (e : CryptoError)
deriving DecidableEq

/-- The import loop of src/store.rs `Store::import`: for each bundled
secret decrypt with the store passphrase and `set` it; a decryption error
aborts the loop, keeping the writes already made.  `k` counts imported
secrets; `nonces` models the per-`set` randomness. -/
def importLoop (pass : Bytes) (p e : String) (now : Nat)
    (nonces : Nat → Bytes) :
    List ExportedSecret → StoreState → Nat →
    StoreState × Except ImportError Nat
  | [], st, k => (st, .ok k)
  | s :: rest, st, k =>
    match decrypt_legacy s.encrypted_value pass with
    | .error er => (st, .error (.decryptError er))
    | .ok v =>
      importLoop pass p e now nonces rest
        (Store.set st pass p e s.key v s.description now (nonces k)) (k + 1)

/-- src/store.rs `Store::import`: verify the bundle's passphrase token
against the store passphrase before writing anything; on mismatch abort
with no side effects, otherwise run the import loop. -/
def Store.importBundle (st : StoreState) (pass : Bytes) (b : ExportBundle)
    (now : Nat) (nonces : Nat → Bytes) : StoreState × Except ImportError Nat :=
  if verify_passphrase pass b.passphrase_verification then
    importLoop pass b.project b.environment now nonces b.secrets st 0
  else (st, .error .wrongPassphrase)

/-! ## Format migration (src/cli/migrate.rs `run`) -/

/-- Errors of the migration command. -/
inductive MigrateError
  | noSaltMetadata
  | badSaltBase64
  | invalidSaltLength
  | rowBase64 (id : Nat)
  | rowError (id : Nat) (e : CryptoError)
deriving DecidableEq

/-- `UPDATE secrets SET encrypted_value = ?1 WHERE id = ?2`. -/
def updateById (st : StoreState) (id : Nat) (enc : Bytes) : StoreState :=
  ⟨st.secrets.map (fun r =>
     if r.id = id then
       ⟨r.id, r.project, r.environment, r.key, enc, r.description,
        r.created_at, r.updated_at, r.version⟩
     else r),
   st.history, st.metadata⟩

/-- The migration scan of src/cli/migrate.rs: for each snapshot row,
base64-decode its envelope; if the first byte is 2 it is already current
(counted in `alr`); otherwise decrypt (legacy path), re-encrypt with the
MasterKey and write back.  Every fallible step uses `?`, so any row error
aborts the whole scan, returning the state reached so far. -/
def migrateLoop (mk : MasterKey) (pass : Bytes) (nonces : Nat → Bytes) :
    List SecretRow → StoreState → Nat → Nat →
    StoreState × Except MigrateError (Nat × Nat)
  | [], st, mig, alr => (st, .ok (mig, alr))
  | row :: rest, st, mig, alr =>
    match b64Decode row.encrypted_value with
    | none => (st, .error (.rowBase64 row.id))
    | some data =>
      if data.head? = some 2 then migrateLoop mk pass nonces rest st mig (alr + 1)
      else
        match decrypt row.encrypted_value mk pass with
        | .error e => (st, .error (.rowError row.id e))
        | .ok pt =>
          migrateLoop mk pass nonces rest
            (updateById st row.id (encrypt pt mk (nonces mig))) (mig + 1) alr

/-- src/cli/migrate.rs `run` after `Store::open`: read the
`encryption_salt` metadata (aborting if absent), base64-decode it, require
exactly 32 bytes, derive the MasterKey, then scan all current rows. -/
def migrateRun (st : StoreState) (pass : Bytes) (nonces : Nat → Bytes) :
    StoreState × Except MigrateError (Nat × Nat) :=
  match lookupMeta st "encryption_salt" with
  | none => (st, .error .noSaltMetadata)
  | some saltB64 =>
    match b64Decode saltB64 with
    | none => (st, .error .badSaltBase64)
    | some salt =>
      if salt.length = 32 then
        migrateLoop (MasterKey.derive pass salt) pass nonces st.secrets st 0 0
      else (st, .error .invalidSaltLength)

/-- A row the migration scan can process without error: its envelope
base64-decodes, and it is either already in the current format or
decryptable. -/
def rowMigratable (mk : MasterKey) (pass : Bytes) (r : SecretRow) : Bool :=
  match b64Decode r.encrypted_value with
  | none => false
  | some data =>
    if data.head? = some 2 then true
    else (decrypt r.encrypted_value mk pass).isOk

/-- A row whose migration step fails at decryption: its envelope
base64-decodes, is not in the current format, and does not decrypt. -/
def rowDecryptFails (mk : MasterKey) (pass : Bytes) (r : SecretRow) : Bool :=
  match b64Decode r.encrypted_value with
  | none => false
  | some data =>
    if data.head? = some 2 then false
    else ¬ (decrypt r.encrypted_value mk pass).isOk

/-- One `set` call's inputs: the plaintext value and description, plus the
clock reading and encryption randomness that call consumes. -/
structure SetInput where
  value : Bytes
  desc : Option String
  now : Nat
  nonce : Bytes

/-- A sequence of `set` calls on one identity. -/
def setSeq (pass : Bytes) (p e k : String) :
    StoreState → List SetInput → StoreState
  | st, [] => st
  | st, i :: rest =>
    setSeq pass p e k (Store.set st pass p e k i.value i.desc i.now i.nonce) rest

/-- Invariant of one identity's lineage after `j` sets on a fresh identity:
the current table holds exactly one matching row at version `j` (none when
`j = 0`), and the identity's history rows carry versions 1..j-1 in
insertion order. -/
def IdentInv (p e k : String) (st : StoreState) (j : Nat) : Prop :=
  (st.secrets.filter (rowMatches p e k)).map SecretRow.version
      = (if j = 0 then [] else [j])
  ∧ (st.history.filter (histMatches p e k)).map SecretHistoryRow.version
      = List.range' 1 (j - 1)

/-! ## Concrete fixtures used by the claim evaluations -/

/-- Fixture: a current row whose envelope carries the unknown version tag 7. -/
def badTagRow : SecretRow := ⟨1, "a", "b", "K1", b64Encode [7], none, 0, 0, 1⟩

/-- Fixture: a current row holding a decryptable legacy (age) envelope. -/
def legacyRowFix : SecretRow :=
  ⟨2, "a", "b", "K2", legacyEncrypt [5] (List.replicate 16 1) [118], none, 0, 0, 1⟩

/-- Fixture: a store holding the two rows above and a valid 32-byte salt. -/
def migrateStoreFix : StoreState :=
  ⟨[badTagRow, legacyRowFix], [],
   [("encryption_salt", b64Encode (List.replicate 32 0))]⟩

/-- Fixture: a bundle whose token verifies under passphrase [5, 6], whose
first secret decrypts and whose second does not. -/
def importBundleFix : ExportBundle :=
  ⟨1, "pj", "env", derive_verification [5, 6] (List.replicate 16 1), 0,
   [⟨"K1", legacyEncrypt [5, 6] (List.replicate 16 2) [118], none, 3⟩,
    ⟨"K2", [], none, 1⟩]⟩

/-! ## Helper lemmas -/

theorem charSextet_sextetChar : ∀ s, s < 64 → charSextet (sextetChar s) = some s := by
  decide

theorem sextetChar_ne_pad : ∀ s, s < 64 → sextetChar s ≠ 61 := by
  decide

theorem b64Decode_onePad (s1 s2 : Nat) (hs1 : s1 < 64) (hs2 : s2 < 64) :
    b64Decode [sextetChar s1, sextetChar s2, 61, 61] = some [s1 * 4 + s2 / 16] := by
  simp [b64Decode, charSextet_sextetChar _ hs1, charSextet_sextetChar _ hs2]

theorem b64Decode_twoPad (s1 s2 s3 : Nat) (hs1 : s1 < 64) (hs2 : s2 < 64)
    (hs3 : s3 < 64) :
    b64Decode [sextetChar s1, sextetChar s2, sextetChar s3, 61]
      = some [s1 * 4 + s2 / 16, s2 % 16 * 16 + s3 / 4] := by
  simp only [b64Decode, charSextet_sextetChar _ hs1, charSextet_sextetChar _ hs2,
    charSextet_sextetChar _ hs3]
  rw [if_neg (sextetChar_ne_pad _ hs3)]
  simp

theorem b64Decode_quartet (s1 s2 s3 s4 : Nat) (hs1 : s1 < 64) (hs2 : s2 < 64)
    (hs3 : s3 < 64) (hs4 : s4 < 64) (rest : Bytes) :
    b64Decode (sextetChar s1 :: sextetChar s2 :: sextetChar s3 ::
               sextetChar s4 :: rest)
      = (b64Decode rest).map
          (fun tail => (s1 * 4 + s2 / 16) :: (s2 % 16 * 16 + s3 / 4) ::
                       (s3 % 4 * 64 + s4) :: tail) := by
  simp only [b64Decode, charSextet_sextetChar _ hs1, charSextet_sextetChar _ hs2,
    charSextet_sextetChar _ hs3, charSextet_sextetChar _ hs4]
  rw [if_neg (sextetChar_ne_pad _ hs3), if_neg (sextetChar_ne_pad _ hs4)]
  cases b64Decode rest <;> rfl

theorem b64_roundtrip :
    ∀ l : Bytes, (∀ b ∈ l, b < 256) → b64Decode (b64Encode l) = some l
  | [], _ => rfl
  | [a], h => by
    have ha : a < 256 := h a (by simp)
    rw [show b64Encode [a] = [sextetChar (a / 4), sextetChar (a % 4 * 16), 61, 61]
        from rfl]
    rw [b64Decode_onePad _ _ (by omega) (by omega)]
    congr 1
    have e1 : a % 4 * 16 / 16 = a % 4 := by omega
    rw [e1]
    congr 1
    omega
  | [a, b], h => by
    have ha : a < 256 := h a (by simp)
    have hb : b < 256 := h b (by simp)
    rw [show b64Encode [a, b] = [sextetChar (a / 4),
        sextetChar (a % 4 * 16 + b / 16), sextetChar (b % 16 * 4), 61] from rfl]
    rw [b64Decode_twoPad _ _ _ (by omega) (by omega) (by omega)]
    congr 1
    have e1 : (a % 4 * 16 + b / 16) / 16 = a % 4 := by omega
    have e2 : (a % 4 * 16 + b / 16) % 16 = b / 16 := by omega
    have e3 : b % 16 * 4 / 4 = b % 16 := by omega
    rw [e1, e2, e3]
    have e4 : a / 4 * 4 + a % 4 = a := by omega
    have e5 : b / 16 * 16 + b % 16 = b := by omega
    rw [e4, e5]
  | a :: b :: c :: rest, h => by
    have ha : a < 256 := h a (by simp)
    have hb : b < 256 := h b (by simp)
    have hc : c < 256 := h c (by simp)
    have ih := b64_roundtrip rest (fun x hx => h x (by simp [hx]))
    rw [show b64Encode (a :: b :: c :: rest)
        = sextetChar (a / 4) :: sextetChar (a % 4 * 16 + b / 16) ::
          sextetChar (b % 16 * 4 + c / 64) :: sextetChar (c % 64) ::
          b64Encode rest from ?_]
    · rw [b64Decode_quartet _ _ _ _ (by omega) (by omega) (by omega) (by omega)]
      rw [ih]
      simp only [Option.map_some', Option.some.injEq]
      have e1 : (a % 4 * 16 + b / 16) / 16 = a % 4 := by omega
      have e2 : (a % 4 * 16 + b / 16) % 16 = b / 16 := by omega
      have e3 : (b % 16 * 4 + c / 64) / 4 = b % 16 := by omega
      have e4 : (b % 16 * 4 + c / 64) % 4 = c / 64 := by omega
      rw [e1, e2, e3, e4]
      congr 1
      · omega
      congr 1
      · omega
      congr 1
      omega
    · cases rest <;> rfl

theorem xorStream_length (ks : Nat → Nat) :
    ∀ i l, (xorStream ks i l).length = l.length
  | _, [] => rfl
  | i, b :: rest => by simp [xorStream, xorStream_length ks (i + 1) rest]

theorem xorStream_cancel (ks : Nat → Nat) :
    ∀ i l, xorStream ks i (xorStream ks i l) = l
  | _, [] => rfl
  | i, b :: rest => by
    simp [xorStream, xorStream_cancel ks (i + 1) rest, Nat.xor_assoc]

theorem hashFold_lt : ∀ (l : Bytes) (seed : Nat), seed < 256 → hashFold l seed < 256
  | [], _, h => h
  | b :: rest, s, _ => by
    have : hashFold (b :: rest) s = hashFold rest (mixByte s b) := rfl
    rw [this]
    exact hashFold_lt rest (mixByte s b) (Nat.mod_lt _ (by omega))

theorem macBytes_length (key data : Bytes) : (macBytes key data).length = 16 := by
  simp [macBytes]

theorem macBytes_lt (key data : Bytes) : ∀ b ∈ macBytes key data, b < 256 := by
  intro b hb
  simp only [macBytes, List.mem_map, List.mem_range] at hb
  obtain ⟨i, hi, rfl⟩ := hb
  exact hashFold_lt _ i (by omega)

theorem ksByte_lt (key nonce : Bytes) (i : Nat) : ksByte key nonce i < 256 :=
  hashFold_lt _ 7 (by omega)

theorem xorStream_lt {l : Bytes} (ks : Nat → Nat) (hks : ∀ i, ks i < 256)
    (hl : ∀ b ∈ l, b < 256) : ∀ i, ∀ b ∈ xorStream ks i l, b < 256 := by
  induction l with
  | nil => intro i b hb; simp [xorStream] at hb
  | cons x rest ih =>
    intro i b hb
    simp only [xorStream, List.mem_cons] at hb
    rcases hb with rfl | hb
    · have hx : x < 256 := hl x (by simp)
      have h2 : (256 : Nat) = 2 ^ 8 := by norm_num
      rw [h2] at hx ⊢
      exact Nat.xor_lt_two_pow hx (h2 ▸ hks i)
    · exact ih (fun y hy => hl y (by simp [hy])) (i + 1) b hb

theorem all_lt_append {l₁ l₂ : Bytes} (h₁ : ∀ b ∈ l₁, b < 256)
    (h₂ : ∀ b ∈ l₂, b < 256) : ∀ b ∈ l₁ ++ l₂, b < 256 := by
  intro b hb
  rcases List.mem_append.mp hb with h | h
  · exact h₁ b h
  · exact h₂ b h

theorem ageHeader_lt : ∀ b ∈ ageHeader, b < 256 := by decide

theorem startsWithB_append : ∀ (p l : Bytes), startsWithB (p ++ l) p = true
  | [], l => by cases l <;> rfl
  | a :: p, l => by simp [startsWithB, startsWithB_append p l]

theorem takeLen_append : ∀ (l m : Bytes), (l ++ m).take l.length = l
  | [], _ => rfl
  | a :: l, m => by simp [takeLen_append l m]

theorem dropLen_append : ∀ (l m : Bytes), (l ++ m).drop l.length = m
  | [], _ => rfl
  | a :: l, m => by simp [dropLen_append l m]

theorem take_append_of_length {n : Nat} {l : Bytes} (hl : l.length = n)
    (m : Bytes) : (l ++ m).take n = l := by
  rw [← hl, takeLen_append]

theorem drop_append_of_length {n : Nat} {l : Bytes} (hl : l.length = n)
    (m : Bytes) : (l ++ m).drop n = m := by
  rw [← hl, dropLen_append]

theorem age_roundtrip (pass nonce pt : Bytes) (hn : nonce.length = 16) :
    ageDecryptBytes pass (ageEncryptBytes pass nonce pt) = .ok pt := by
  have hm := macBytes_length pass nonce
  have hx := xorStream_length (ksByte pass nonce) 0 pt
  unfold ageEncryptBytes ageDecryptBytes
  rw [List.append_assoc, List.append_assoc, startsWithB_append]
  rw [if_pos rfl, dropLen_append]
  simp only [List.length_append, hn, hm, hx]
  rw [if_neg (by omega)]
  rw [take_append_of_length hn, drop_append_of_length hn,
      take_append_of_length hm, if_pos rfl, drop_append_of_length hm,
      xorStream_cancel]

theorem ageEncryptBytes_lt (pass nonce pt : Bytes)
    (hnb : ∀ b ∈ nonce, b < 256) (hpb : ∀ b ∈ pt, b < 256) :
    ∀ b ∈ ageEncryptBytes pass nonce pt, b < 256 := by
  unfold ageEncryptBytes
  exact all_lt_append (all_lt_append (all_lt_append ageHeader_lt hnb)
    (macBytes_lt pass nonce))
    (xorStream_lt _ (fun i => ksByte_lt pass nonce i) hpb 0)

theorem legacy_roundtrip (pass nonce pt : Bytes) (hn : nonce.length = 16)
    (hnb : ∀ b ∈ nonce, b < 256) (hpb : ∀ b ∈ pt, b < 256)
    (hutf : isValidUtf8 pt = true) :
    decrypt_legacy (legacyEncrypt pass nonce pt) pass = .ok pt := by
  simp only [legacyEncrypt, decrypt_legacy,
    b64_roundtrip _ (ageEncryptBytes_lt pass nonce pt hnb hpb),
    age_roundtrip pass nonce pt hn, hutf, if_true]

theorem chacha_roundtrip (key nonce pt : Bytes) :
    chachaOpen key nonce (chachaSeal key nonce pt) = some pt := by
  have hx := xorStream_length (ksByte key nonce) 0 pt
  have hm := macBytes_length (key ++ nonce) (xorStream (ksByte key nonce) 0 pt)
  unfold chachaSeal chachaOpen
  simp only [List.length_append, hx, hm]
  rw [if_neg (by omega)]
  have e : pt.length + 16 - 16 = pt.length := by omega
  rw [e, ← hx, takeLen_append, dropLen_append, if_pos rfl, xorStream_cancel]

theorem chachaSeal_lt (key nonce pt : Bytes) (hpb : ∀ b ∈ pt, b < 256) :
    ∀ b ∈ chachaSeal key nonce pt, b < 256 := by
  unfold chachaSeal
  exact all_lt_append (xorStream_lt _ (fun i => ksByte_lt key nonce i) hpb 0)
    (macBytes_lt _ _)

theorem encrypt_decrypt_aux (pt : Bytes) (mk : MasterKey) (nonce pass : Bytes)
    (hn : nonce.length = 12) (hnb : ∀ b ∈ nonce, b < 256)
    (hpb : ∀ b ∈ pt, b < 256) (hutf : isValidUtf8 pt = true) :
    decrypt (encrypt pt mk nonce) mk pass = .ok pt := by
  have hbytes : ∀ b ∈ CRYPTO_VERSION :: (nonce ++ chachaSeal mk.key nonce pt),
      b < 256 := by
    intro b hb
    rcases List.mem_cons.mp hb with rfl | hb
    · decide
    · exact all_lt_append hnb (chachaSeal_lt mk.key nonce pt hpb) b hb
  have hv2 : decrypt_v2 (nonce ++ chachaSeal mk.key nonce pt) mk = .ok pt := by
    unfold decrypt_v2
    rw [List.length_append, hn]
    rw [if_neg (by omega)]
    rw [take_append_of_length hn, drop_append_of_length hn]
    simp only [chacha_roundtrip, hutf, if_true]
  simp only [encrypt, decrypt, b64_roundtrip _ hbytes]
  simp only [CRYPTO_VERSION] at hv2 ⊢
  simp only [if_pos rfl, hv2, if_true]

theorem find?_eq_head?_filter {α : Type} (p : α → Bool) :
    ∀ l : List α, l.find? p = (l.filter p).head?
  | [] => rfl
  | a :: l => by
    cases h : p a
    · rw [List.find?_cons_of_neg _ (by simp [h]),
          List.filter_cons_of_neg (by simp [h])]
      exact find?_eq_head?_filter p l
    · rw [List.find?_cons_of_pos _ h, List.filter_cons_of_pos h]
      rfl

theorem filter_eq_nil_of_find?_none {α : Type} {p : α → Bool} {l : List α}
    (h : l.find? p = none) : l.filter p = [] := by
  rw [find?_eq_head?_filter] at h
  cases hf : l.filter p with
  | nil => rfl
  | cons a t => rw [hf] at h; simp at h

theorem filter_map_ite {α : Type} (p : α → Bool) (f : α → α)
    (hp : ∀ x, p x = true → p (f x) = true) :
    ∀ l : List α,
      (l.map (fun x => if p x then f x else x)).filter p = (l.filter p).map f
  | [] => rfl
  | a :: l => by
    by_cases h : p a
    · simp [List.filter_cons, h, hp a h, filter_map_ite p f hp l]
    · simp [List.filter_cons, h, filter_map_ite p f hp l]

theorem mem_map_of_fix {α : Type} (f : α → α) {l : List α} {x : α}
    (hx : x ∈ l) (hfx : f x = x) : x ∈ l.map f := by
  have := List.mem_map_of_mem f hx
  rwa [hfx] at this

theorem take_all_of_length_le {α : Type} :
    ∀ (l : List α) (n : Nat), l.length ≤ n → l.take n = l
  | [], n, _ => by simp
  | a :: l, n, h => by
    cases n with
    | zero => simp at h
    | succ m => simp [take_all_of_length_le l m (by simpa using h)]

theorem range1_concat : ∀ (s n : Nat), List.range' s (n + 1) = List.range' s n ++ [s + n]
  | _, 0 => by simp [List.range']
  | s, n + 1 => by
    show s :: List.range' (s + 1) (n + 1) = (s :: List.range' (s + 1) n) ++ [s + (n + 1)]
    have e : s + 1 + n = s + (n + 1) := by omega
    rw [range1_concat (s + 1) n, e]
    rfl

theorem pairwise_lt_range1 : ∀ (s n : Nat), List.Pairwise (· < ·) (List.range' s n)
  | _, 0 => List.Pairwise.nil
  | s, n + 1 => by
    simp only [List.range']
    refine List.Pairwise.cons ?_ (pairwise_lt_range1 (s + 1) n)
    intro m hm
    have := List.mem_range'_1.mp hm
    omega

theorem insertVersionDesc_small (r : SecretHistoryRow) :
    ∀ l : List SecretHistoryRow, (∀ s ∈ l, r.version < s.version) →
      insertVersionDesc r l = l ++ [r]
  | [], _ => rfl
  | s :: l, h => by
    have hs : r.version < s.version := h s (by simp)
    simp only [insertVersionDesc]
    rw [if_neg (by omega)]
    rw [insertVersionDesc_small r l (fun x hx => h x (by simp [hx]))]
    rfl

theorem sortVersionDesc_of_ascending :
    ∀ l : List SecretHistoryRow,
      List.Pairwise (fun a b => a.version < b.version) l →
      sortVersionDesc l = l.reverse
  | [], _ => rfl
  | a :: l, h => by
    have hp := List.pairwise_cons.mp h
    simp only [sortVersionDesc]
    rw [sortVersionDesc_of_ascending l hp.2]
    rw [insertVersionDesc_small a l.reverse
        (fun s hs => hp.1 s (List.mem_reverse.mp hs))]
    simp

theorem rowMatches_update (p e k : String) (x : SecretRow) (enc : Bytes)
    (desc : Option String) (now v : Nat) :
    rowMatches p e k
      (⟨x.id, x.project, x.environment, x.key, enc, desc, x.created_at, now, v⟩ :
        SecretRow) = rowMatches p e k x := by
  simp [rowMatches]

theorem findSecret_set_encrypted (st : StoreState) (pass : Bytes)
    (p e k : String) (value : Bytes) (desc : Option String) (now : Nat)
    (nonce : Bytes) :
    ∃ r, findSecret (Store.set st pass p e k value desc now nonce) p e k = some r
       ∧ r.encrypted_value = legacyEncrypt pass nonce value := by
  cases hfind : List.find? (rowMatches p e k) st.secrets with
  | none =>
    refine ⟨⟨freshId st, p, e, k, legacyEncrypt pass nonce value, desc, now, now, 1⟩,
      ?_, rfl⟩
    simp only [Store.set, findSecret, hfind]
    rw [find?_eq_head?_filter, List.filter_append,
        filter_eq_nil_of_find?_none hfind]
    simp [rowMatches]
  | some row =>
    refine ⟨⟨row.id, row.project, row.environment, row.key,
      legacyEncrypt pass nonce value, desc, row.created_at, now,
      row.version + 1⟩, ?_, rfl⟩
    simp only [Store.set, findSecret, hfind]
    rw [find?_eq_head?_filter,
        filter_map_ite (rowMatches p e k) _
          (fun x hx => by rw [rowMatches_update]; exact hx),
        List.head?_map, ← find?_eq_head?_filter]
    rw [hfind]
    rfl

theorem map_version_singleton {l : List SecretRow} {v : Nat}
    (h : l.map SecretRow.version = [v]) :
    (l.head?).map SecretRow.version = some v := by
  cases l with
  | nil => simp at h
  | cons a t =>
    cases t with
    | nil => simp at h ⊢; exact h
    | cons b t2 => simp at h

theorem filter_singleton_of_map_version {st : StoreState} {p e k : String}
    {j : Nat} (h1 : (st.secrets.filter (rowMatches p e k)).map SecretRow.version
      = [j]) :
    ∃ r, st.secrets.filter (rowMatches p e k) = [r] ∧ r.version = j := by
  cases hf : st.secrets.filter (rowMatches p e k) with
  | nil => rw [hf] at h1; simp at h1
  | cons a t =>
    cases t with
    | nil =>
      rw [hf] at h1
      simp at h1
      exact ⟨a, rfl, h1⟩
    | cons b t2 => rw [hf] at h1; simp at h1

theorem set_step (pass : Bytes) (p e k : String) (i : SetInput)
    (st : StoreState) (j : Nat) (h : IdentInv p e k st j) :
    IdentInv p e k
      (Store.set st pass p e k i.value i.desc i.now i.nonce) (j + 1) := by
  obtain ⟨h1, h2⟩ := h
  by_cases hj : j = 0
  · subst hj
    rw [if_pos rfl] at h1
    have hfil : st.secrets.filter (rowMatches p e k) = [] := by
      cases hf : st.secrets.filter (rowMatches p e k) with
      | nil => rfl
      | cons a t => rw [hf] at h1; simp at h1
    have hfind : List.find? (rowMatches p e k) st.secrets = none := by
      rw [find?_eq_head?_filter, hfil]
      rfl
    constructor
    · simp only [Store.set, findSecret, hfind]
      rw [List.filter_append, hfil]
      simp [rowMatches]
    · simp only [Store.set, findSecret, hfind]
      exact h2
  · rw [if_neg hj] at h1
    obtain ⟨r, hfil, hver⟩ := filter_singleton_of_map_version h1
    have hfind : List.find? (rowMatches p e k) st.secrets = some r := by
      rw [find?_eq_head?_filter, hfil]
      rfl
    have hmatch : rowMatches p e k r = true := by
      have : r ∈ st.secrets.filter (rowMatches p e k) := by rw [hfil]; simp
      exact (List.mem_filter.mp this).2
    constructor
    · simp only [Store.set, findSecret, hfind]
      rw [filter_map_ite (rowMatches p e k) _
            (fun x hx => by rw [rowMatches_update]; exact hx),
          hfil]
      simp [hver]
    · simp only [Store.set, findSecret, hfind]
      rw [List.filter_append, hfil]
      have harch : histMatches p e k (archiveRow r) = true := by
        simp only [rowMatches, decide_eq_true_eq] at hmatch
        simp [histMatches, archiveRow, hmatch]
      simp only [List.map_cons, List.map_nil, List.filter_cons, harch,
        if_true, List.filter_nil, List.map_append, h2]
      simp only [archiveRow]
      rw [hver]
      have e1 : j + 1 - 1 = (j - 1) + 1 := by omega
      rw [e1, range1_concat]
      have e2 : 1 + (j - 1) = j := by omega
      rw [e2]

theorem setSeq_inv (pass : Bytes) (p e k : String) :
    ∀ (ins : List SetInput) (st : StoreState) (j : Nat),
      IdentInv p e k st j →
      IdentInv p e k (setSeq pass p e k st ins) (j + ins.length)
  | [], st, j, h => by simpa [setSeq] using h
  | i :: ins, st, j, h => by
    have step := set_step pass p e k i st j h
    have ih := setSeq_inv pass p e k ins _ (j + 1) step
    simp only [setSeq, List.length_cons]
    have e : j + (ins.length + 1) = (j + 1) + ins.length := by omega
    rw [e]
    exact ih

theorem get_after_set (st : StoreState) (pass : Bytes) (p e k : String)
    (value : Bytes) (desc : Option String) (now : Nat) (nonce : Bytes)
    (hrt : decrypt_legacy (legacyEncrypt pass nonce value) pass = .ok value) :
    Store.get (Store.set st pass p e k value desc now nonce) pass p e k
      = .ok (some value) := by
  obtain ⟨r, hfind, henc⟩ :=
    findSecret_set_encrypted st pass p e k value desc now nonce
  simp only [Store.get, hfind, henc, hrt]

theorem migrateLoop_preserves_unlisted (mk : MasterKey) (pass : Bytes)
    (nonces : Nat → Bytes) :
    ∀ (rows : List SecretRow) (st : StoreState) (mig alr : Nat)
      (r : SecretRow), r ∈ st.secrets → r.id ∉ rows.map SecretRow.id →
      r ∈ (migrateLoop mk pass nonces rows st mig alr).1.secrets
  | [], _, _, _, _, hr, _ => hr
  | row :: rest, st, mig, alr, r, hr, hid => by
    have hid1 : r.id ≠ row.id := by
      intro hcontra
      exact hid (by simp [hcontra])
    have hid2 : r.id ∉ rest.map SecretRow.id := by
      intro hcontra
      exact hid (by simp [hcontra])
    cases hd : b64Decode row.encrypted_value with
    | none => simp only [migrateLoop, hd]; exact hr
    | some data =>
      by_cases h2 : data.head? = some 2
      · simp only [migrateLoop, hd]
        rw [if_pos h2]
        exact migrateLoop_preserves_unlisted mk pass nonces rest st mig
          (alr + 1) r hr hid2
      · cases hdec : decrypt row.encrypted_value mk pass with
        | error e =>
          simp only [migrateLoop, hd]
          rw [if_neg h2]
          simp only [hdec]
          exact hr
        | ok pt =>
          simp only [migrateLoop, hd]
          rw [if_neg h2]
          simp only [hdec]
          refine migrateLoop_preserves_unlisted mk pass nonces rest _ (mig + 1)
            alr r ?_ hid2
          exact mem_map_of_fix _ hr (by rw [if_neg hid1])

theorem migrateLoop_good_extends (mk : MasterKey) (pass : Bytes)
    (nonces : Nat → Bytes) :
    ∀ (good : List SecretRow) (bad : SecretRow) (rest : List SecretRow)
      (st : StoreState) (mig alr : Nat),
      (∀ r ∈ good, rowMigratable mk pass r = true) →
      rowDecryptFails mk pass bad = true →
      ∃ e, migrateLoop mk pass nonces (good ++ bad :: rest) st mig alr
          = ((migrateLoop mk pass nonces good st mig alr).1,
             .error (.rowError bad.id e))
  | [], bad, rest, st, mig, alr, _, hb => by
    cases hd : b64Decode bad.encrypted_value with
    | none => simp [rowDecryptFails, hd] at hb
    | some data =>
      simp only [rowDecryptFails, hd] at hb
      by_cases h2 : data.head? = some 2
      · rw [if_pos h2] at hb; simp at hb
      · rw [if_neg h2] at hb
        cases hdec : decrypt bad.encrypted_value mk pass with
        | ok pt => rw [hdec] at hb; simp [Except.isOk, Except.toBool] at hb
        | error e =>
          refine ⟨e, ?_⟩
          simp only [List.nil_append, migrateLoop, hd]
          rw [if_neg h2]
          simp only [hdec]
  | g :: good, bad, rest, st, mig, alr, hg, hb => by
    have hgg := hg g (by simp)
    cases hd : b64Decode g.encrypted_value with
    | none => simp [rowMigratable, hd] at hgg
    | some data =>
      simp only [rowMigratable, hd] at hgg
      by_cases h2 : data.head? = some 2
      · have ih := migrateLoop_good_extends mk pass nonces good bad rest st mig
          (alr + 1) (fun r hr => hg r (by simp [hr])) hb
        have hstep : ∀ (l : List SecretRow) (s : StoreState) (m a : Nat),
            migrateLoop mk pass nonces (g :: l) s m a
              = migrateLoop mk pass nonces l s m (a + 1) := by
          intro l s m a
          simp only [migrateLoop, hd]
          rw [if_pos h2]
        rw [List.cons_append, hstep, hstep]
        exact ih
      · rw [if_neg h2] at hgg
        cases hdec : decrypt g.encrypted_value mk pass with
        | error e => rw [hdec] at hgg; simp [Except.isOk, Except.toBool] at hgg
        | ok pt =>
          have ih := migrateLoop_good_extends mk pass nonces good bad rest
            (updateById st g.id (encrypt pt mk (nonces mig))) (mig + 1) alr
            (fun r hr => hg r (by simp [hr])) hb
          have hstep : ∀ (l : List SecretRow) (s : StoreState) (m a : Nat),
              migrateLoop mk pass nonces (g :: l) s m a
                = migrateLoop mk pass nonces l
                    (updateById s g.id (encrypt pt mk (nonces m))) (m + 1) a := by
            intro l s m a
            simp only [migrateLoop, hd]
            rw [if_neg h2]
            simp only [hdec]
          rw [List.cons_append, hstep, hstep]
          exact ih

/-! ## Claim theorems -/

/-- Claim C1: for every project, environment, key and non-empty value, on an
open store, `set(project, environment, key, value)` followed by
`get(project, environment, key)` returns `some value`, byte-for-byte equal
to the value that was set.  (The value is the byte content of a Rust
`&str`: valid UTF-8, hence bytes < 256; the nonce is the 16 random bytes
the encryption draws.) -/
theorem C1_set_get_roundtrip (st : StoreState) (pass : Bytes)
    (p e k : String) (value : Bytes) (desc : Option String) (now : Nat)
    (nonce : Bytes) (hne : value ≠ [])
    (hutf : isValidUtf8 value = true) (hvb : ∀ b ∈ value, b < 256)
    (hn : nonce.length = 16) (hnb : ∀ b ∈ nonce, b < 256) :
    Store.get (Store.set st pass p e k value desc now nonce) pass p e k
      = .ok (some value) :=
  get_after_set st pass p e k value desc now nonce
    (legacy_roundtrip pass nonce value hn hnb hvb hutf)

/-- Witness for C1: concrete set-then-get on a store that already holds an
unrelated row. -/
theorem C1_witness :
    ([104, 105] : Bytes) ≠ []
    ∧ isValidUtf8 [104, 105] = true
    ∧ Store.get (Store.set ⟨[⟨9, "x", "y", "z", [], none, 0, 0, 3⟩], [], []⟩
        [112] "api" "prod" "KEY" [104, 105] none 3 (List.replicate 16 0))
        [112] "api" "prod" "KEY" = .ok (some [104, 105]) :=
  ⟨by decide, by decide,
   C1_set_get_roundtrip ⟨[⟨9, "x", "y", "z", [], none, 0, 0, 3⟩], [], []⟩
     [112] "api" "prod" "KEY" [104, 105] none 3 (List.replicate 16 0)
     (by decide) (by decide) (by decide) (by decide) (by decide)⟩

/-- Claim C2: for every MasterKey and every plaintext (the byte content of a
Rust `&str`, including the empty string), `decrypt (encrypt plaintext key)
key passphrase` succeeds and returns exactly the original plaintext. -/
theorem C2_encrypt_decrypt_roundtrip (mk : MasterKey) (pass : Bytes)
    (pt : Bytes) (nonce : Bytes)
    (hutf : isValidUtf8 pt = true) (hpb : ∀ b ∈ pt, b < 256)
    (hn : nonce.length = 12) (hnb : ∀ b ∈ nonce, b < 256) :
    decrypt (encrypt pt mk nonce) mk pass = .ok pt :=
  encrypt_decrypt_aux pt mk nonce pass hn hnb hpb hutf

/-- Witness for C2: concrete round-trip of the empty plaintext. -/
theorem C2_witness :
    isValidUtf8 [] = true
    ∧ decrypt (encrypt [] ⟨List.replicate 32 7⟩ (List.replicate 12 0))
        ⟨List.replicate 32 7⟩ [9] = .ok [] :=
  ⟨rfl,
   C2_encrypt_decrypt_roundtrip ⟨List.replicate 32 7⟩ [9] []
     (List.replicate 12 0) rfl (by decide) (by decide) (by decide)⟩

/-- Claim C3: for every identity with no current entry and no history, and
every sequence of N successful `set` calls on that identity with no
intervening delete, the current entry's version after the k-th set is
exactly k, and `history` (with a limit of at least N-1) then returns
exactly N-1 archived entries carrying versions 1..N-1 in descending
version order. -/
theorem C3_version_lineage (st0 : StoreState) (pass : Bytes)
    (p e k : String) (inputs : List SetInput) (limit : Nat)
    (h0 : st0.secrets.filter (rowMatches p e k) = [])
    (h1 : st0.history.filter (histMatches p e k) = [])
    (hlim : inputs.length - 1 ≤ limit) :
    (∀ j, 1 ≤ j → j ≤ inputs.length →
      (findSecret (setSeq pass p e k st0 (inputs.take j)) p e k).map
          SecretRow.version = some j)
    ∧ (Store.history (setSeq pass p e k st0 inputs) p e k limit).map
          SecretHistoryRow.version
        = (List.range' 1 (inputs.length - 1)).reverse := by
  have hinv0 : IdentInv p e k st0 0 := by
    constructor
    · rw [h0]; simp
    · rw [h1]; simp [List.range']
  constructor
  · intro j hj1 hj2
    have hinv := setSeq_inv pass p e k (inputs.take j) st0 0 hinv0
    rw [List.length_take] at hinv
    have e1 : 0 + min j inputs.length = j := by omega
    rw [e1] at hinv
    have h1x := hinv.1
    rw [if_neg (by omega)] at h1x
    unfold findSecret
    rw [find?_eq_head?_filter]
    exact map_version_singleton h1x
  · have hinv := setSeq_inv pass p e k inputs st0 0 hinv0
    rw [Nat.zero_add] at hinv
    have h2x := hinv.2
    unfold Store.history
    have hpair : List.Pairwise (fun a b => a.version < b.version)
        ((setSeq pass p e k st0 inputs).history.filter (histMatches p e k)) := by
      have hpr := pairwise_lt_range1 1 (inputs.length - 1)
      rw [← h2x] at hpr
      exact List.pairwise_map.mp hpr
    rw [sortVersionDesc_of_ascending _ hpair]
    have hlen : ((setSeq pass p e k st0 inputs).history.filter
        (histMatches p e k)).length = inputs.length - 1 := by
      have hc := congrArg List.length h2x
      simpa using hc
    rw [take_all_of_length_le _ _ (by rw [List.length_reverse, hlen]; exact hlim)]
    rw [List.map_reverse, h2x]

/-- Witness for C3: two sets on a fresh identity; version is 2 after the
second set and the history query returns exactly the archived version 1. -/
theorem C3_witness :
    (findSecret (setSeq [7] "a" "b" "c" ⟨[], [], []⟩
        ([⟨[1], none, 0, []⟩, ⟨[2], none, 1, []⟩].take 2)) "a" "b" "c").map
        SecretRow.version = some 2
    ∧ (Store.history (setSeq [7] "a" "b" "c" ⟨[], [], []⟩
        [⟨[1], none, 0, []⟩, ⟨[2], none, 1, []⟩]) "a" "b" "c" 5).map
        SecretHistoryRow.version = (List.range' 1 1).reverse :=
  ⟨(C3_version_lineage ⟨[], [], []⟩ [7] "a" "b" "c"
      [⟨[1], none, 0, []⟩, ⟨[2], none, 1, []⟩] 5 rfl rfl (by decide)).1
      2 (by decide) (by decide),
   (C3_version_lineage ⟨[], [], []⟩ [7] "a" "b" "c"
      [⟨[1], none, 0, []⟩, ⟨[2], none, 1, []⟩] 5 rfl rfl (by decide)).2⟩

/-- Claim C4 (evaluation of the code at the failing input): `delete` runs
its archive INSERT and its DELETE as two separate non-transactional
statements; when the second statement fails after the first committed, the
history row (with deleted_at set) is written while the current row is
still present — the state the claim says no failure can produce. -/
theorem C4_delete_not_atomic :
    (Store.delete ⟨[⟨1, "api", "prod", "KEY", [], none, 0, 0, 1⟩], [], []⟩
        "api" "prod" "KEY" 5 true).2 = .error ()
    ∧ (Store.delete ⟨[⟨1, "api", "prod", "KEY", [], none, 0, 0, 1⟩], [], []⟩
        "api" "prod" "KEY" 5 true).1.history
      = [⟨"api", "prod", "KEY", [], 1, 0, some 5⟩]
    ∧ findSecret (Store.delete
        ⟨[⟨1, "api", "prod", "KEY", [], none, 0, 0, 1⟩], [], []⟩
        "api" "prod" "KEY" 5 true).1 "api" "prod" "KEY"
      = some ⟨1, "api", "prod", "KEY", [], none, 0, 0, 1⟩ := by
  refine ⟨rfl, by decide, by decide⟩

/-- Claim C5 (evaluation of the code at the failing input): `Store::init`
writes only the passphrase-verification token and the schema version into
metadata — it never generates or stores an `encryption_salt` — so the
migration command's salt lookup fails on every store init created. -/
theorem C5_init_stores_no_salt (pass verifNonce pass2 : Bytes)
    (nonces : Nat → Bytes) :
    lookupMeta (Store.init pass verifNonce) "encryption_salt" = none
    ∧ (migrateRun (Store.init pass verifNonce) pass2 nonces).2
        = .error .noSaltMetadata :=
  ⟨rfl, rfl⟩

/-- Counterexample to claim C6 as stated: on a store whose first row fails
decryption (unknown tag 7) and whose second row is a perfectly migratable
legacy envelope, the scan aborts with the first row's error and leaves the
state untouched: the remaining (migratable) row is not processed. -/
theorem C6_counterexample :
    (migrateRun migrateStoreFix [5] (fun _ => List.replicate 12 0)).2
        = .error (.rowError 1 (.unknownVersion 7))
    ∧ (migrateRun migrateStoreFix [5] (fun _ => List.replicate 12 0)).1
        = migrateStoreFix
    ∧ rowMigratable (MasterKey.derive [5] (List.replicate 32 0)) [5]
        legacyRowFix = true := by
  refine ⟨rfl, by decide, by decide⟩

/-- Claim C6 as amended: a row error during the migration scan aborts the
whole scan at that row (with that row's error), leaving the state exactly
as it was after processing the rows before it — previously migrated rows
stay migrated and already-current rows before the failure are skipped —
and every row not among the processed prefix is untouched, so the
operation is safely re-runnable. -/
theorem C6_migrate_abort (mk : MasterKey) (pass : Bytes)
    (nonces : Nat → Bytes) (good : List SecretRow) (bad : SecretRow)
    (rest : List SecretRow) (st : StoreState) (mig alr : Nat)
    (hg : ∀ r ∈ good, rowMigratable mk pass r = true)
    (hb : rowDecryptFails mk pass bad = true) :
    (∃ e, migrateLoop mk pass nonces (good ++ bad :: rest) st mig alr
        = ((migrateLoop mk pass nonces good st mig alr).1,
           .error (.rowError bad.id e)))
    ∧ ∀ r ∈ st.secrets, r.id ∉ good.map SecretRow.id →
        r ∈ (migrateLoop mk pass nonces (good ++ bad :: rest) st mig alr).1.secrets := by
  obtain ⟨e, he⟩ :=
    migrateLoop_good_extends mk pass nonces good bad rest st mig alr hg hb
  refine ⟨⟨e, he⟩, ?_⟩
  intro r hr hid
  rw [he]
  exact migrateLoop_preserves_unlisted mk pass nonces good st mig alr r hr hid

/-- Witness for the amended C6 at the concrete fixture store. -/
theorem C6_migrate_abort_witness :
    (∀ r ∈ ([] : List SecretRow),
        rowMigratable (MasterKey.derive [5] (List.replicate 32 0)) [5] r = true)
    ∧ rowDecryptFails (MasterKey.derive [5] (List.replicate 32 0)) [5]
        badTagRow = true
    ∧ ((∃ e, migrateLoop (MasterKey.derive [5] (List.replicate 32 0)) [5]
          (fun _ => List.replicate 12 0) ([] ++ badTagRow :: [legacyRowFix])
          migrateStoreFix 0 0
        = ((migrateLoop (MasterKey.derive [5] (List.replicate 32 0)) [5]
            (fun _ => List.replicate 12 0) [] migrateStoreFix 0 0).1,
           .error (.rowError badTagRow.id e)))
      ∧ ∀ r ∈ migrateStoreFix.secrets, r.id ∉ ([] : List SecretRow).map SecretRow.id →
          r ∈ (migrateLoop (MasterKey.derive [5] (List.replicate 32 0)) [5]
            (fun _ => List.replicate 12 0) ([] ++ badTagRow :: [legacyRowFix])
            migrateStoreFix 0 0).1.secrets) :=
  ⟨by simp, by decide,
   C6_migrate_abort (MasterKey.derive [5] (List.replicate 32 0)) [5]
     (fun _ => List.replicate 12 0) [] badTagRow [legacyRowFix]
     migrateStoreFix 0 0 (by simp) (by decide)⟩

/-- Claim C7: `decrypt` dispatches on the decoded leading version byte: the
current tag (2) goes to the fast symmetric path, the legacy tag (1) — or a
payload whose bytes match the age self-identifying header even without the
legacy tag — goes to the legacy passphrase path, and any other tag is a
hard error, never silently treated as legacy. -/
theorem C7_decrypt_dispatch (c : Bytes) (mk : MasterKey) (pass : Bytes)
    (v : Nat) (rest : Bytes) (hdec : b64Decode c = some (v :: rest)) :
    (v = 2 → decrypt c mk pass = decrypt_v2 rest mk)
    ∧ (v = 1 → decrypt c mk pass = decrypt_legacy c pass)
    ∧ (v ≠ 2 → v ≠ 1 → is_age_format (v :: rest) = true →
        decrypt c mk pass = decrypt_legacy c pass)
    ∧ (v ≠ 2 → v ≠ 1 → is_age_format (v :: rest) = false →
        decrypt c mk pass = .error (.unknownVersion v)) := by
  refine ⟨?_, ?_, ?_, ?_⟩
  · intro hv
    simp only [decrypt, hdec]
    rw [if_pos (show v = CRYPTO_VERSION from hv)]
  · intro hv
    simp only [decrypt, hdec]
    rw [if_neg (show ¬ v = CRYPTO_VERSION by rw [hv]; decide),
        if_pos (show v = LEGACY_VERSION from hv)]
  · intro hv2 hv1 hage
    simp only [decrypt, hdec]
    rw [if_neg (show ¬ v = CRYPTO_VERSION from hv2),
        if_neg (show ¬ v = LEGACY_VERSION from hv1), if_pos hage]
  · intro hv2 hv1 hage
    simp only [decrypt, hdec]
    rw [if_neg (show ¬ v = CRYPTO_VERSION from hv2),
        if_neg (show ¬ v = LEGACY_VERSION from hv1),
        if_neg (by rw [hage]; decide)]

/-- Witness for C7 at an envelope whose decoded tag is the unknown byte 9:
the dispatch yields a hard error. -/
theorem C7_witness :
    (9 = 2 → decrypt (b64Encode [9]) ⟨[]⟩ [] = decrypt_v2 [] ⟨[]⟩)
    ∧ (9 = 1 → decrypt (b64Encode [9]) ⟨[]⟩ [] = decrypt_legacy (b64Encode [9]) [])
    ∧ (9 ≠ 2 → 9 ≠ 1 → is_age_format [9] = true →
        decrypt (b64Encode [9]) ⟨[]⟩ [] = decrypt_legacy (b64Encode [9]) [])
    ∧ (9 ≠ 2 → 9 ≠ 1 → is_age_format [9] = false →
        decrypt (b64Encode [9]) ⟨[]⟩ [] = .error (.unknownVersion 9)) :=
  C7_decrypt_dispatch (b64Encode [9]) ⟨[]⟩ [] 9 [] (by decide)

/-- Claim C8: if a bundle's passphrase-verification token does not verify
under the importing store's passphrase, import fails with the
authentication error before writing anything, and the destination store is
returned exactly as it was (secret count included). -/
theorem C8_import_auth_abort (st : StoreState) (pass : Bytes)
    (b : ExportBundle) (now : Nat) (nonces : Nat → Bytes)
    (h : verify_passphrase pass b.passphrase_verification = false) :
    Store.importBundle st pass b now nonces = (st, .error .wrongPassphrase) := by
  unfold Store.importBundle
  rw [if_neg (by rw [h]; decide)]

/-- Witness for C8: a bundle with an unverifiable token leaves a one-secret
store untouched. -/
theorem C8_witness :
    verify_passphrase [3] (⟨1, "pj", "env", [], 0,
        [⟨"K1", [], none, 1⟩]⟩ : ExportBundle).passphrase_verification = false
    ∧ Store.importBundle ⟨[⟨1, "a", "b", "c", [], none, 0, 0, 1⟩], [], []⟩
        [3] ⟨1, "pj", "env", [], 0, [⟨"K1", [], none, 1⟩]⟩ 0 (fun _ => [])
      = (⟨[⟨1, "a", "b", "c", [], none, 0, 0, 1⟩], [], []⟩,
         .error .wrongPassphrase) :=
  ⟨by decide,
   C8_import_auth_abort ⟨[⟨1, "a", "b", "c", [], none, 0, 0, 1⟩], [], []⟩
     [3] ⟨1, "pj", "env", [], 0, [⟨"K1", [], none, 1⟩]⟩ 0 (fun _ => [])
     (by decide)⟩

/-- Claim C9: import is not atomic across the bundled secrets: for the
fixture bundle whose token verifies but whose second secret fails to
decrypt, import returns an error while the first secret has already been
written via `set` (as a fresh version-1 lineage) and remains readable in
the destination store. -/
theorem C9_import_not_atomic :
    (Store.importBundle ⟨[], [], []⟩ [5, 6] importBundleFix 4
        (fun _ => List.replicate 16 9)).2
      = .error (.decryptError (.age .notAgeData))
    ∧ (findSecret (Store.importBundle ⟨[], [], []⟩ [5, 6] importBundleFix 4
        (fun _ => List.replicate 16 9)).1 "pj" "env" "K1").map
        SecretRow.version = some 1
    ∧ Store.get (Store.importBundle ⟨[], [], []⟩ [5, 6] importBundleFix 4
        (fun _ => List.replicate 16 9)).1 [5, 6] "pj" "env" "K1"
      = .ok (some [118]) := by
  refine ⟨rfl, by decide, rfl⟩

/-- Claim C10: for every identity currently present (as the unique matching
row, at version N), calling `set` with a value identical to the currently
stored plaintext still archives the current row to history and increments
the version to N+1: `set` never deduplicates or skips unchanged values. -/
theorem C10_set_never_deduplicates (st : StoreState) (pass : Bytes)
    (p e k : String) (value : Bytes) (desc : Option String) (now : Nat)
    (nonce : Bytes) (r : SecretRow)
    (huniq : st.secrets.filter (rowMatches p e k) = [r])
    (hsame : decrypt_legacy r.encrypted_value pass = .ok value) :
    ((findSecret (Store.set st pass p e k value desc now nonce) p e k).map
        SecretRow.version = some (r.version + 1))
    ∧ (Store.set st pass p e k value desc now nonce).history
        = st.history ++ [archiveRow r] := by
  have hfind : List.find? (rowMatches p e k) st.secrets = some r := by
    rw [find?_eq_head?_filter, huniq]
    rfl
  constructor
  · simp only [Store.set, findSecret, hfind]
    rw [find?_eq_head?_filter,
        filter_map_ite (rowMatches p e k) _
          (fun x hx => by rw [rowMatches_update]; exact hx),
        huniq]
    rfl
  · simp only [Store.set, findSecret, hfind]
    rw [huniq]
    rfl

/-- Witness for C10: re-setting the identical stored value still bumps the
version from 1 to 2 and archives version 1. -/
theorem C10_witness :
    (⟨[⟨1, "a", "b", "c", legacyEncrypt [3] (List.replicate 16 0) [120],
        none, 0, 0, 1⟩], [], []⟩ : StoreState).secrets.filter
        (rowMatches "a" "b" "c")
      = [⟨1, "a", "b", "c", legacyEncrypt [3] (List.replicate 16 0) [120],
          none, 0, 0, 1⟩]
    ∧ decrypt_legacy (legacyEncrypt [3] (List.replicate 16 0) [120]) [3]
      = .ok [120]
    ∧ ((findSecret (Store.set
        ⟨[⟨1, "a", "b", "c", legacyEncrypt [3] (List.replicate 16 0) [120],
           none, 0, 0, 1⟩], [], []⟩
        [3] "a" "b" "c" [120] none 9 (List.replicate 16 4)) "a" "b" "c").map
        SecretRow.version = some 2) :=
  ⟨by decide, rfl,
   (C10_set_never_deduplicates
     ⟨[⟨1, "a", "b", "c", legacyEncrypt [3] (List.replicate 16 0) [120],
        none, 0, 0, 1⟩], [], []⟩
     [3] "a" "b" "c" [120] none 9 (List.replicate 16 4)
     ⟨1, "a", "b", "c", legacyEncrypt [3] (List.replicate 16 0) [120],
      none, 0, 0, 1⟩ (by decide) rfl).1⟩

end TinySecrets
